import Mathlib

/-!
Verification of the in-memory sort/selection engine of the `tienda-virtual`
repository: a shallow embedding of `src/app/algorithms/sorting.py`
(`quicksort_with_steps`, `mergesort_with_steps` and their wrappers) and of
`src/app/algorithms/greedy.py` (`greedy_best_products`).

Modelling choices:
- items are an arbitrary type `α`; the caller-supplied key function maps into a
  linearly ordered type `β` (the spec requires a total order on keys);
- Python numbers (prices, budget) are modelled by exact rationals `ℚ` and the
  integer `quantity` by `ℤ`;
- the mutable `steps` accumulator threaded through the recursion is modelled by
  value: each recursive helper returns the list of snapshots it appends, in
  append order, and the public entry points prepend the caller-supplied trace
  (`None` → a fresh empty trace);
- the Python call `sorted(..., reverse=True)` (a stable descending sort) is modelled
  by the stable descending insertion sort, which computes the same list.
-/

namespace TiendaVirtual

variable {α : Type} {β : Type} [LinearOrder β]

/-- Function `_keys_snapshot(items, key)` from sorting.py: the list of keys of the items. -/
def keys_snapshot (key : α → β) (items : List α) : List β :=
  items.map key

/-- The quicksort pivot key: `key(arr[len(arr) // 2])`. -/
def midKey (key : α → β) (arr : List α) (h : 0 < arr.length) : β :=
  key (arr.get ⟨arr.length / 2, Nat.div_lt_self h one_lt_two⟩)

/-- The inner `_quicksort` of `quicksort_with_steps` in sorting.py.  It returns
the sorted list together with the snapshots this call appends to the shared
`steps` list, in append order: the partition snapshot of
`left + middle + right`, then the snapshots of the two recursive calls, then
the snapshot of the combined `sorted_left + middle + sorted_right`. -/
def quicksortRec (key : α → β) (arr : List α) : List α × List (List β) :=
  if h : arr.length ≤ 1 then (arr, [])
  else
    let pivot := midKey key arr (by omega)
    let L := arr.filter fun x => key x < pivot
    let M := arr.filter fun x => key x = pivot
    let R := arr.filter fun x => pivot < key x
    ((quicksortRec key L).1 ++ M ++ (quicksortRec key R).1,
      keys_snapshot key (L ++ M ++ R) ::
        ((quicksortRec key L).2 ++ (quicksortRec key R).2 ++
          [keys_snapshot key ((quicksortRec key L).1 ++ M ++ (quicksortRec key R).1)]))
termination_by arr.length
decreasing_by
  · refine List.length_filter_lt_length_iff_exists.2
      ⟨arr.get ⟨arr.length / 2, Nat.div_lt_self (by omega) one_lt_two⟩,
        List.get_mem _ _ _, ?_⟩
    simp [midKey]
  · refine List.length_filter_lt_length_iff_exists.2
      ⟨arr.get ⟨arr.length / 2, Nat.div_lt_self (by omega) one_lt_two⟩,
        List.get_mem _ _ _, ?_⟩
    simp [midKey]

/-- The inner `_merge` of `mergesort_with_steps` in sorting.py: two-pointer
merge taking the left element on a tie (`<=`); the trailing
`merged.extend(left[i:]); merged.extend(right[j:])` is the two base cases. -/
def mergeL (key : α → β) : List α → List α → List α
  | [], r => r
  | a :: l, [] => a :: l
  | a :: l, b :: r =>
    if key a ≤ key b then a :: mergeL key l (b :: r)
    else b :: mergeL key (a :: l) r
termination_by l r => l.length + r.length

/-- The inner `_mergesort` of `mergesort_with_steps` in sorting.py, returning
the sorted list together with the snapshots appended by this call: the
snapshots of the recursion on the first half `arr[:mid]`, then those of the
second half `arr[mid:]`, then the snapshot `_merge` appends of its fully
merged result. -/
def mergesortRec (key : α → β) (arr : List α) : List α × List (List β) :=
  if h : arr.length ≤ 1 then (arr, [])
  else
    let L := mergesortRec key (arr.take (arr.length / 2))
    let R := mergesortRec key (arr.drop (arr.length / 2))
    (mergeL key L.1 R.1, L.2 ++ R.2 ++ [keys_snapshot key (mergeL key L.1 R.1)])
termination_by arr.length
decreasing_by
  · simp only [List.length_take]
    omega
  · simp only [List.length_drop]
    omega

/-- Entry point `quicksort_with_steps(items, key, steps=None)`: the `None` guard allocates
a fresh empty trace; snapshots of this call are appended after the entries
already in a caller-supplied `steps` list. -/
def quicksort_with_steps (items : List α) (key : α → β)
    (steps : Option (List (List β))) : List α × List (List β) :=
  let init := match steps with
    | none => []
    | some s => s
  ((quicksortRec key items).1, init ++ (quicksortRec key items).2)

/-- Entry point `mergesort_with_steps(items, key, steps=None)`. -/
def mergesort_with_steps (items : List α) (key : α → β)
    (steps : Option (List (List β))) : List α × List (List β) :=
  let init := match steps with
    | none => []
    | some s => s
  ((mergesortRec key items).1, init ++ (mergesortRec key items).2)

/-- Wrapper `quicksort(items, key)`: calls `quicksort_with_steps` with an
explicit fresh `steps=[]` and discarding the trace. -/
def quicksort (items : List α) (key : α → β) : List α :=
  (quicksort_with_steps items key (some [])).1

/-- Wrapper `mergesort(items, key)`: calls `mergesort_with_steps` with an
explicit fresh `steps=[]` and discarding the trace. -/
def mergesort (items : List α) (key : α → β) : List α :=
  (mergesort_with_steps items key (some [])).1

/-! ### Greedy budget selector, greedy.py -/

/-- A product as used by `greedy_best_products`: a numeric `price`, an integer
`quantity`, and an identifier standing for all remaining payload fields. -/
structure Product where
  pid : ℕ
  price : ℚ
  quantity : ℤ
deriving DecidableEq, Repr

/-- The divisor of the ranking value: `p.quantity if p.quantity > 0 else 1`. -/
def rankDivisor (p : Product) : ℚ :=
  if 0 < p.quantity then (p.quantity : ℚ) else 1

/-- The ranking value `p.price / (p.quantity if p.quantity > 0 else 1)` used as
the sort key of greedy.py line 6. -/
def unitPrice (p : Product) : ℚ :=
  p.price / rankDivisor p

/-- One step of the stable descending insertion sort: the new element is placed
before the first element whose key is not above its own, so among equal keys
earlier input elements stay first. -/
def insertDesc (p : Product) : List Product → List Product
  | [] => [p]
  | q :: l => if unitPrice q ≤ unitPrice p then p :: q :: l else q :: insertDesc p l

/-- The Python call `sorted(products, key=..., reverse=True)` of greedy.py line 6: the
stable sort by descending ranking value, modelled as stable insertion sort. -/
def rankProducts : List Product → List Product
  | [] => []
  | p :: l => insertDesc p (rankProducts l)

/-- The body of the `for p in sorted_products` loop of greedy.py: state is the
pair `(selected, total_cost)`. -/
def greedyStep (budget : ℚ) (st : List Product × ℚ) (p : Product) :
    List Product × ℚ :=
  if st.2 + p.price ≤ budget then (st.1 ++ [p], st.2 + p.price) else st

/-- The dictionary returned by `greedy_best_products`. -/
structure SelectionResult where
  budget : ℚ
  total_spent : ℚ
  selected_products : List Product
deriving DecidableEq, Repr

/-- Function `greedy_best_products(products, budget)` from greedy.py. -/
def greedy_best_products (products : List Product) (budget : ℚ) :
    SelectionResult :=
  let ranked := rankProducts products
  let final := ranked.foldl (greedyStep budget) ([], 0)
  { budget := budget, total_spent := final.2, selected_products := final.1 }

/-- Sum of the prices of a list of products. -/
def sumPrices (l : List Product) : ℚ :=
  (l.map Product.price).sum

/-- Follows the wording of the spec for the selection loop: walking the ranked list
once, an item is taken if and only if, at its turn, the running total plus its
price stays within the budget; taken items are emitted in ranked order and a
skipped item is never revisited. -/
def specSelect (budget : ℚ) : ℚ → List Product → List Product
  | _, [] => []
  | t, p :: l =>
    if t + p.price ≤ budget then p :: specSelect budget (t + p.price) l
    else specSelect budget t l

/-! ### Lemmas about the greedy selection loop -/

lemma sumPrices_nil : sumPrices [] = 0 := rfl

lemma sumPrices_cons (p : Product) (l : List Product) :
    sumPrices (p :: l) = p.price + sumPrices l := by
  simp [sumPrices]

/-- The accumulator loop of greedy.py computes exactly the single-pass
selection: the selected items are appended in ranked order and the running
total is the sum of the selected prices. -/
lemma foldl_greedyStep (budget : ℚ) :
    ∀ (l : List Product) (sel : List Product) (t : ℚ),
      l.foldl (greedyStep budget) (sel, t) =
        (sel ++ specSelect budget t l, t + sumPrices (specSelect budget t l))
  | [], sel, t => by simp [specSelect, sumPrices]
  | p :: l, sel, t => by
    by_cases h : t + p.price ≤ budget
    · simp only [List.foldl_cons, greedyStep, h, if_true, specSelect, if_pos]
      rw [foldl_greedyStep budget l (sel ++ [p]) (t + p.price)]
      simp [sumPrices_cons, add_assoc]
    · simp only [List.foldl_cons, greedyStep, h, if_false, specSelect, if_neg,
        not_false_iff]
      exact foldl_greedyStep budget l sel t

/-- The guard of the loop keeps the running total within the budget. -/
lemma specSelect_le (budget : ℚ) :
    ∀ (l : List Product) (t : ℚ), t ≤ budget →
      t + sumPrices (specSelect budget t l) ≤ budget
  | [], t, ht => by simpa [specSelect, sumPrices] using ht
  | p :: l, t, ht => by
    by_cases h : t + p.price ≤ budget
    · have hrec := specSelect_le budget l (t + p.price) h
      simp only [specSelect, if_pos h, sumPrices_cons]
      linarith
    · have hrec := specSelect_le budget l t ht
      simpa [specSelect, h] using hrec

/-- The selection is a subsequence of the ranked list. -/
lemma specSelect_sublist (budget : ℚ) :
    ∀ (l : List Product) (t : ℚ), (specSelect budget t l).Sublist l
  | [], _ => by simp [specSelect]
  | p :: l, t => by
    by_cases h : t + p.price ≤ budget
    · simpa [specSelect, h] using (specSelect_sublist budget l (t + p.price)).cons₂ p
    · simpa [specSelect, h] using (specSelect_sublist budget l t).cons p

/-- C2 (counterexample): the claim quantifies over every budget, but with the
empty input and budget `-1` the loop selects nothing and `total_spent = 0`,
which is not `≤ -1`. -/
theorem greedy_budget_invariant_counterexample :
    ¬ ((greedy_best_products [] (-1)).total_spent ≤ (-1 : ℚ)) := by decide

/-- C2 (amended): for every input and every nonnegative budget,
`total_spent ≤ budget`; and for every input and every budget, `total_spent`
is exactly the sum of the prices of the selected items. -/
theorem greedy_budget_invariant (products : List Product) (budget : ℚ) :
    (0 ≤ budget → (greedy_best_products products budget).total_spent ≤ budget) ∧
    (greedy_best_products products budget).total_spent =
      sumPrices (greedy_best_products products budget).selected_products := by
  have hfold := foldl_greedyStep budget (rankProducts products) [] 0
  constructor
  · intro hb
    have hle := specSelect_le budget (rankProducts products) 0 hb
    simp only [greedy_best_products, hfold]
    simpa using hle
  · simp [greedy_best_products, hfold]

/-- C2 witness: the worked example of the spec (three products, budget 20). -/
theorem greedy_budget_invariant_witness :
    (0 : ℚ) ≤ 20 ∧
    (greedy_best_products [⟨1, 10, 2⟩, ⟨2, 9, 1⟩, ⟨3, 5, 5⟩] 20).total_spent ≤ 20 ∧
    (greedy_best_products [⟨1, 10, 2⟩, ⟨2, 9, 1⟩, ⟨3, 5, 5⟩] 20).total_spent =
      sumPrices (greedy_best_products [⟨1, 10, 2⟩, ⟨2, 9, 1⟩, ⟨3, 5, 5⟩]
        20).selected_products :=
  ⟨by norm_num,
    (greedy_budget_invariant [⟨1, 10, 2⟩, ⟨2, 9, 1⟩, ⟨3, 5, 5⟩] 20).1 (by norm_num),
    (greedy_budget_invariant [⟨1, 10, 2⟩, ⟨2, 9, 1⟩, ⟨3, 5, 5⟩] 20).2⟩

/-- C3: the loop walks the ranked list once, taking an item exactly when the
running total plus its price fits the budget (`specSelect` is that single-pass
rule); the selection is a subsequence of the ranked list, so selected items
appear in ranked order and skipped items are never revisited; the empty input
and a sole item priced over the budget both yield `total_spent = 0` and an
empty selection. -/
theorem greedy_single_pass_characterization :
    (∀ (products : List Product) (budget : ℚ),
        (greedy_best_products products budget).selected_products =
          specSelect budget 0 (rankProducts products) ∧
        ((greedy_best_products products budget).selected_products).Sublist
          (rankProducts products)) ∧
    greedy_best_products [] 100 = ⟨100, 0, []⟩ ∧
    greedy_best_products [⟨1, 150, 1⟩] 100 = ⟨100, 0, []⟩ := by
  refine ⟨?_, by decide, ?_⟩
  · intro products budget
    have hfold := foldl_greedyStep budget (rankProducts products) [] 0
    constructor
    · simp [greedy_best_products, hfold]
    · have hsub := specSelect_sublist budget (rankProducts products) 0
      simpa [greedy_best_products, hfold] using hsub
  · simp only [greedy_best_products, rankProducts, insertDesc, List.foldl_cons,
      List.foldl_nil, greedyStep]
    norm_num

/-- C7: the ranking value divides by `quantity` when it is positive and by `1`
otherwise, which is exactly `max(quantity, 1)` for an integer quantity; the
divisor is always strictly positive, so the division-by-zero branch is
unreachable. -/
theorem greedy_divisor_positive :
    ∀ p : Product,
      unitPrice p = p.price / ((max p.quantity 1 : ℤ) : ℚ) ∧
      rankDivisor p = ((max p.quantity 1 : ℤ) : ℚ) ∧
      0 < rankDivisor p := by
  intro p
  by_cases h : 0 < p.quantity
  · have h1 : max p.quantity 1 = p.quantity := max_eq_left (by omega)
    refine ⟨by simp [unitPrice, rankDivisor, h, h1], by simp [rankDivisor, h, h1], ?_⟩
    simp only [rankDivisor, if_pos h]
    exact_mod_cast h
  · have h1 : max p.quantity 1 = 1 := max_eq_right (by omega)
    exact ⟨by simp [unitPrice, rankDivisor, h, h1],
      by simp [rankDivisor, h, h1], by simp [rankDivisor, h]⟩

/-! ### Lemmas about quicksort -/

/-- The three-way partition by key below / at / above a pivot value is a
permutation of the list. -/
lemma filter_three_perm (key : α → β) (b : β) :
    ∀ l : List α,
      ((l.filter fun x => key x < b) ++
        ((l.filter fun x => key x = b) ++ (l.filter fun x => b < key x))).Perm l
  | [] => by simp
  | a :: l => by
    have ih := filter_three_perm key b l
    rcases lt_trichotomy (key a) b with h | h | h
    · have h1 : ¬ key a = b := ne_of_lt h
      have h2 : ¬ b < key a := not_lt.2 h.le
      simp only [List.filter_cons, decide_eq_true_eq, h, h1, h2, if_true, if_false,
        List.cons_append]
      exact ih.cons a
    · simp only [List.filter_cons, decide_eq_true_eq, h, lt_self_iff_false,
        eq_self_iff_true, if_true, if_false, List.cons_append]
      exact List.Perm.trans List.perm_middle (ih.cons a)
    · have h1 : ¬ key a < b := not_lt.2 h.le
      have h2 : ¬ key a = b := ne_of_gt h
      simp only [List.filter_cons, decide_eq_true_eq, h, h1, h2, if_true, if_false,
        List.cons_append]
      exact (List.Perm.append_left _ List.perm_middle).trans
        (List.perm_middle.trans (ih.cons a))

/-- Base case of `_quicksort`: length at most 1 returns the list, no snapshot. -/
lemma quicksortRec_of_le (key : α → β) {arr : List α} (h : arr.length ≤ 1) :
    quicksortRec key arr = (arr, []) := by
  rw [quicksortRec]
  simp [h]

/-- Recursive case of `_quicksort`, written out. -/
lemma quicksortRec_eq (key : α → β) {arr : List α} (h : ¬ arr.length ≤ 1) :
    quicksortRec key arr =
      ((quicksortRec key (arr.filter fun x => key x < midKey key arr (by omega))).1 ++
          (arr.filter fun x => key x = midKey key arr (by omega)) ++
          (quicksortRec key (arr.filter fun x => midKey key arr (by omega) < key x)).1,
        keys_snapshot key
            ((arr.filter fun x => key x < midKey key arr (by omega)) ++
              (arr.filter fun x => key x = midKey key arr (by omega)) ++
              (arr.filter fun x => midKey key arr (by omega) < key x)) ::
          ((quicksortRec key (arr.filter fun x => key x < midKey key arr (by omega))).2 ++
            (quicksortRec key (arr.filter fun x => midKey key arr (by omega) < key x)).2 ++
            [keys_snapshot key
              ((quicksortRec key (arr.filter fun x => key x < midKey key arr (by omega))).1 ++
                (arr.filter fun x => key x = midKey key arr (by omega)) ++
                (quicksortRec key
                  (arr.filter fun x => midKey key arr (by omega) < key x)).1)])) := by
  rw [quicksortRec]
  rw [dif_neg h]

/-- The quicksort output is a permutation of the input. -/
lemma quicksortRec_perm (key : α → β) : ∀ arr : List α, ((quicksortRec key arr).1).Perm arr
  | arr => by
    by_cases h : arr.length ≤ 1
    · rw [quicksortRec_of_le key h]
    · rw [quicksortRec_eq key h]
      have pL := quicksortRec_perm key (arr.filter fun x => key x < midKey key arr (by omega))
      have pR := quicksortRec_perm key (arr.filter fun x => midKey key arr (by omega) < key x)
      have tri : (((arr.filter fun x => key x < midKey key arr (by omega)) ++
          (arr.filter fun x => key x = midKey key arr (by omega))) ++
          (arr.filter fun x => midKey key arr (by omega) < key x)).Perm arr := by
        rw [List.append_assoc]
        exact filter_three_perm key (midKey key arr (by omega)) arr
      exact ((pL.append (List.Perm.refl _)).append pR).trans tri
termination_by arr => arr.length
decreasing_by
  all_goals
    refine List.length_filter_lt_length_iff_exists.2
      ⟨arr.get ⟨arr.length / 2, Nat.div_lt_self (by omega) one_lt_two⟩,
        List.get_mem _ _ _, ?_⟩
    simp [midKey]

/-- A list of length at most one is sorted. -/
lemma sorted_len_le_one (key : α → β) {l : List α} (h : l.length ≤ 1) :
    l.Sorted (fun x y : α => key x ≤ key y) := by
  match l with
  | [] => simp
  | [a] => simp
  | a :: b :: t =>
    exfalso
    simp only [List.length_cons] at h
    omega

/-- A list all of whose keys are one value is sorted. -/
lemma sorted_of_const (key : α → β) (b : β) :
    ∀ l : List α, (∀ x ∈ l, key x = b) → l.Sorted (fun x y : α => key x ≤ key y)
  | [], _ => by simp
  | a :: l, h => by
    refine List.pairwise_cons.2
      ⟨?_, sorted_of_const key b l (fun x hx => h x (List.mem_cons_of_mem a hx))⟩
    intro y hy
    rw [h a (List.mem_cons_self a l), h y (List.mem_cons_of_mem a hy)]

/-- Every element of the quicksort output of `l` is an element of `l`. -/
lemma mem_quicksortRec (key : α → β) {arr : List α} {x : α}
    (hx : x ∈ (quicksortRec key arr).1) : x ∈ arr :=
  (quicksortRec_perm key arr).subset hx

/-- The quicksort output is sorted by key. -/
lemma quicksortRec_sorted (key : α → β) :
    ∀ arr : List α, ((quicksortRec key arr).1).Sorted (fun x y : α => key x ≤ key y)
  | arr => by
    by_cases h : arr.length ≤ 1
    · rw [quicksortRec_of_le key h]
      exact sorted_len_le_one key h
    · rw [quicksortRec_eq key h]
      have sL := quicksortRec_sorted key (arr.filter fun x => key x < midKey key arr (by omega))
      have sR := quicksortRec_sorted key (arr.filter fun x => midKey key arr (by omega) < key x)
      have hL : ∀ x ∈ (quicksortRec key
          (arr.filter fun x => key x < midKey key arr (by omega))).1,
          key x < midKey key arr (by omega) := by
        intro x hx
        have := (List.mem_filter.1 (mem_quicksortRec key hx)).2
        simpa using this
      have hR : ∀ x ∈ (quicksortRec key
          (arr.filter fun x => midKey key arr (by omega) < key x)).1,
          midKey key arr (by omega) < key x := by
        intro x hx
        have := (List.mem_filter.1 (mem_quicksortRec key hx)).2
        simpa using this
      have hM : ∀ x ∈ (arr.filter fun x => key x = midKey key arr (by omega)),
          key x = midKey key arr (by omega) := by
        intro x hx
        have := (List.mem_filter.1 hx).2
        simpa using this
      have sM := sorted_of_const key (midKey key arr (by omega))
        (arr.filter fun x => key x = midKey key arr (by omega)) hM
      refine List.pairwise_append.2 ⟨List.pairwise_append.2 ⟨sL, sM, ?_⟩, sR, ?_⟩
      · intro x hx y hy
        exact le_of_lt (lt_of_lt_of_eq (hL x hx) (hM y hy).symm)
      · intro x hx y hy
        rcases List.mem_append.1 hx with hx1 | hx2
        · exact le_of_lt ((hL x hx1).trans (hR y hy))
        · exact le_of_lt (lt_of_eq_of_lt (hM x hx2) (hR y hy))
termination_by arr => arr.length
decreasing_by
  all_goals
    refine List.length_filter_lt_length_iff_exists.2
      ⟨arr.get ⟨arr.length / 2, Nat.div_lt_self (by omega) one_lt_two⟩,
        List.get_mem _ _ _, ?_⟩
    simp [midKey]

/-- Quicksort is stable in the strong sense: for every key value `c`, the
subsequence of elements whose key is `c` is exactly the same, in the same
order, in the output as in the input — the three filters never separate
equal-key items. -/
lemma quicksortRec_filter (key : α → β) (c : β) :
    ∀ arr : List α,
      ((quicksortRec key arr).1).filter (fun x => key x = c) =
        arr.filter fun x => key x = c
  | arr => by
    by_cases h : arr.length ≤ 1
    · rw [quicksortRec_of_le key h]
    · rw [quicksortRec_eq key h]
      have fL := quicksortRec_filter key c
        (arr.filter fun x => key x < midKey key arr (by omega))

      have fR := quicksortRec_filter key c
        (arr.filter fun x => midKey key arr (by omega) < key x)
      simp only [List.filter_append, fL, fR, List.filter_filter]
      rcases lt_trichotomy c (midKey key arr (by omega)) with hc | hc | hc
      · have e1 : (arr.filter fun a =>
            decide (key a = c) && decide (key a < midKey key arr (by omega))) =
            arr.filter fun a => key a = c := by
          refine List.filter_congr ?_
          intro x _
          by_cases hx : key x = c <;> simp [hx, hc]
        have e2 : (arr.filter fun a =>
            decide (key a = c) && decide (key a = midKey key arr (by omega))) = [] := by
          refine List.filter_eq_nil_iff.2 ?_
          intro x _
          by_cases hx : key x = c <;> simp [hx, hc.ne]
        have e3 : (arr.filter fun a =>
            decide (key a = c) && decide (midKey key arr (by omega) < key a)) = [] := by
          refine List.filter_eq_nil_iff.2 ?_
          intro x _
          by_cases hx : key x = c <;> simp [hx, not_lt.2 hc.le]
        rw [e1, e2, e3, List.append_nil, List.append_nil]
      · have e1 : (arr.filter fun a =>
            decide (key a = c) && decide (key a < midKey key arr (by omega))) = [] := by
          refine List.filter_eq_nil_iff.2 ?_
          intro x _
          by_cases hx : key x = c <;> simp [hx, ← hc, lt_irrefl]
        have e2 : (arr.filter fun a =>
            decide (key a = c) && decide (key a = midKey key arr (by omega))) =
            arr.filter fun a => key a = c := by
          refine List.filter_congr ?_
          intro x _
          by_cases hx : key x = c <;> simp [hx, ← hc]
        have e3 : (arr.filter fun a =>
            decide (key a = c) && decide (midKey key arr (by omega) < key a)) = [] := by
          refine List.filter_eq_nil_iff.2 ?_
          intro x _
          by_cases hx : key x = c <;> simp [hx, ← hc, lt_irrefl]
        rw [e1, e2, e3, List.nil_append, List.append_nil]
      · have e1 : (arr.filter fun a =>
            decide (key a = c) && decide (key a < midKey key arr (by omega))) = [] := by
          refine List.filter_eq_nil_iff.2 ?_
          intro x _
          by_cases hx : key x = c <;> simp [hx, not_lt.2 hc.le]
        have e2 : (arr.filter fun a =>
            decide (key a = c) && decide (key a = midKey key arr (by omega))) = [] := by
          refine List.filter_eq_nil_iff.2 ?_
          intro x _
          by_cases hx : key x = c <;> simp [hx, (ne_of_gt hc)]
        have e3 : (arr.filter fun a =>
            decide (key a = c) && decide (midKey key arr (by omega) < key a)) =
            arr.filter fun a => key a = c := by
          refine List.filter_congr ?_
          intro x _
          by_cases hx : key x = c <;> simp [hx, hc]
        rw [e1, e2, e3, List.nil_append, List.nil_append]
termination_by arr => arr.length
decreasing_by
  all_goals
    refine List.length_filter_lt_length_iff_exists.2
      ⟨arr.get ⟨arr.length / 2, Nat.div_lt_self (by omega) one_lt_two⟩,
        List.get_mem _ _ _, ?_⟩
    simp [midKey]

/-! ### Lemmas about mergesort -/

/-- The merge of two lists is a permutation of their concatenation. -/
lemma mergeL_perm (key : α → β) :
    ∀ l r : List α, (mergeL key l r).Perm (l ++ r)
  | [], r => by simp [mergeL]
  | a :: l, [] => by simp [mergeL]
  | a :: l, b :: r => by
    rw [mergeL]
    by_cases h : key a ≤ key b
    · rw [if_pos h]
      exact (mergeL_perm key l (b :: r)).cons a
    · rw [if_neg h]
      exact ((mergeL_perm key (a :: l) r).cons b).trans List.perm_middle.symm
termination_by l r => l.length + r.length

/-- Merging two sorted lists yields a sorted list. -/
lemma mergeL_sorted (key : α → β) :
    ∀ l r : List α, l.Sorted (fun x y : α => key x ≤ key y) →
      r.Sorted (fun x y : α => key x ≤ key y) →
      (mergeL key l r).Sorted (fun x y : α => key x ≤ key y)
  | [], r, _, hr => by simpa [mergeL] using hr
  | a :: l, [], hl, _ => by simpa [mergeL] using hl
  | a :: l, b :: r, hl, hr => by
    rw [mergeL]
    have hla := List.pairwise_cons.1 hl
    have hrb := List.pairwise_cons.1 hr
    by_cases h : key a ≤ key b
    · rw [if_pos h]
      refine List.pairwise_cons.2 ⟨?_, mergeL_sorted key l (b :: r) hla.2 hr⟩
      intro y hy
      rcases List.mem_append.1 ((mergeL_perm key l (b :: r)).subset hy) with hy1 | hy2
      · exact hla.1 y hy1
      · rcases List.mem_cons.1 hy2 with rfl | hy3
        · exact h
        · exact h.trans (hrb.1 y hy3)
    · rw [if_neg h]
      have hba : key b ≤ key a := le_of_lt (not_le.1 h)
      refine List.pairwise_cons.2 ⟨?_, mergeL_sorted key (a :: l) r hl hrb.2⟩
      intro y hy
      rcases List.mem_append.1 ((mergeL_perm key (a :: l) r).subset hy) with hy1 | hy2
      · rcases List.mem_cons.1 hy1 with rfl | hy3
        · exact hba
        · exact hba.trans (hla.1 y hy3)
      · exact hrb.1 y hy2
termination_by l r => l.length + r.length

/-- Stability of the merge: because the left element is taken on a tie and the
left run is sorted, the elements of any fixed key value `c` appear in the
merged list as those of the left run followed by those of the right run, in
their original orders. -/
lemma mergeL_filter (key : α → β) (c : β) :
    ∀ l r : List α, l.Sorted (fun x y : α => key x ≤ key y) →
      (mergeL key l r).filter (fun x => key x = c) =
        l.filter (fun x => key x = c) ++ r.filter (fun x => key x = c)
  | [], r, _ => by simp [mergeL]
  | a :: l, [], _ => by simp [mergeL]
  | a :: l, b :: r, hl => by
    rw [mergeL]
    have hla := List.pairwise_cons.1 hl
    by_cases h : key a ≤ key b
    · rw [if_pos h]
      have ihl := mergeL_filter key c l (b :: r) hla.2
      by_cases hac : key a = c
      · simp [List.filter_cons, hac, ihl]
      · simp [List.filter_cons, hac, ihl]
    · rw [if_neg h]
      have hba : key b < key a := not_le.1 h
      have ihl := mergeL_filter key c (a :: l) r hl
      by_cases hbc : key b = c
      · have hnone : (a :: l).filter (fun x => key x = c) = [] := by
          refine List.filter_eq_nil_iff.2 ?_
          intro x hx
          have haxk : key a ≤ key x := by
            rcases List.mem_cons.1 hx with rfl | hx2
            · exact le_refl _
            · exact hla.1 x hx2
          have hxc : key x ≠ c := by
            rw [← hbc]
            exact ne_of_gt (lt_of_lt_of_le hba haxk)
          simpa using hxc
        simp [List.filter_cons, hbc, ihl, hnone]
      · simp [List.filter_cons, hbc, ihl]
termination_by l r => l.length + r.length

/-- Base case of `_mergesort`: length at most 1 returns the list, no snapshot. -/
lemma mergesortRec_of_le (key : α → β) {arr : List α} (h : arr.length ≤ 1) :
    mergesortRec key arr = (arr, []) := by
  rw [mergesortRec]
  simp [h]

/-- Recursive case of `_mergesort`, written out. -/
lemma mergesortRec_eq (key : α → β) {arr : List α} (h : ¬ arr.length ≤ 1) :
    mergesortRec key arr =
      (mergeL key (mergesortRec key (arr.take (arr.length / 2))).1
          (mergesortRec key (arr.drop (arr.length / 2))).1,
        (mergesortRec key (arr.take (arr.length / 2))).2 ++
          (mergesortRec key (arr.drop (arr.length / 2))).2 ++
          [keys_snapshot key
            (mergeL key (mergesortRec key (arr.take (arr.length / 2))).1
              (mergesortRec key (arr.drop (arr.length / 2))).1)]) := by
  rw [mergesortRec]
  rw [dif_neg h]

/-- The mergesort output is a permutation of the input. -/
lemma mergesortRec_perm (key : α → β) (arr : List α) :
    ((mergesortRec key arr).1).Perm arr := by
  by_cases h : arr.length ≤ 1
  · rw [mergesortRec_of_le key h]
  · rw [mergesortRec_eq key h]
    have pL := mergesortRec_perm key (arr.take (arr.length / 2))
    have pR := mergesortRec_perm key (arr.drop (arr.length / 2))
    refine (mergeL_perm key _ _).trans ((pL.append pR).trans ?_)
    rw [List.take_append_drop]
termination_by arr.length
decreasing_by
  · simp only [List.length_take]
    omega
  · simp only [List.length_drop]
    omega

/-- The mergesort output is sorted by key. -/
lemma mergesortRec_sorted (key : α → β) (arr : List α) :
    ((mergesortRec key arr).1).Sorted (fun x y : α => key x ≤ key y) := by
  by_cases h : arr.length ≤ 1
  · rw [mergesortRec_of_le key h]
    exact sorted_len_le_one key h
  · rw [mergesortRec_eq key h]
    exact mergeL_sorted key _ _
      (mergesortRec_sorted key (arr.take (arr.length / 2)))
      (mergesortRec_sorted key (arr.drop (arr.length / 2)))
termination_by arr.length
decreasing_by
  · simp only [List.length_take]
    omega
  · simp only [List.length_drop]
    omega

/-- Mergesort is stable: the subsequence of elements of any fixed key value is
preserved from input to output. -/
lemma mergesortRec_filter (key : α → β) (c : β) (arr : List α) :
    ((mergesortRec key arr).1).filter (fun x => key x = c) =
      arr.filter fun x => key x = c := by
  by_cases h : arr.length ≤ 1
  · rw [mergesortRec_of_le key h]
  · rw [mergesortRec_eq key h]
    have fL := mergesortRec_filter key c (arr.take (arr.length / 2))
    have fR := mergesortRec_filter key c (arr.drop (arr.length / 2))
    rw [mergeL_filter key c _ _ (mergesortRec_sorted key (arr.take (arr.length / 2))),
      fL, fR, ← List.filter_append, List.take_append_drop]
termination_by arr.length
decreasing_by
  · simp only [List.length_take]
    omega
  · simp only [List.length_drop]
    omega

/-- The number of snapshots of a mergesort run is the number of merge calls,
`n - 1` for `n` items (truncated subtraction: `0` for `n ≤ 1`). -/
lemma mergesortRec_trace_length (key : α → β) (arr : List α) :
    ((mergesortRec key arr).2).length = arr.length - 1 := by
  by_cases h : arr.length ≤ 1
  · rw [mergesortRec_of_le key h]
    simp only [List.length_nil]
    omega
  · rw [mergesortRec_eq key h]
    have tL := mergesortRec_trace_length key (arr.take (arr.length / 2))
    have tR := mergesortRec_trace_length key (arr.drop (arr.length / 2))
    simp only [List.length_append, tL, tR, List.length_take, List.length_drop,
      List.length_cons, List.length_nil]
    omega
termination_by arr.length
decreasing_by
  · simp only [List.length_take]
    omega
  · simp only [List.length_drop]
    omega

/-- Uniqueness of stable sorting: two lists sorted by key that agree, for every
key value, on the subsequence of elements with that key, are equal. -/
lemma sorted_filter_ext (key : α → β) :
    ∀ l₁ l₂ : List α, l₁.Sorted (fun x y : α => key x ≤ key y) →
      l₂.Sorted (fun x y : α => key x ≤ key y) →
      (∀ c : β, l₁.filter (fun x => key x = c) = l₂.filter (fun x => key x = c)) →
      l₁ = l₂ := by
  intro l₁
  induction l₁ with
  | nil =>
    intro l₂ _ _ h
    cases l₂ with
    | nil => rfl
    | cons b t₂ =>
      exfalso
      have hb := h (key b)
      simp [List.filter_cons] at hb
  | cons a t₁ ih =>
    intro l₂ h₁ h₂ h
    cases l₂ with
    | nil =>
      exfalso
      have ha := h (key a)
      simp [List.filter_cons] at ha
    | cons b t₂ =>
      have h₁c := List.pairwise_cons.1 h₁
      have h₂c := List.pairwise_cons.1 h₂
      have hbl : b ∈ (a :: t₁).filter (fun x => key x = key b) := by
        rw [h (key b)]
        simp [List.filter_cons]
      have hab : key a ≤ key b := by
        rcases List.mem_cons.1 (List.mem_filter.1 hbl).1 with hba | hmem
        · rw [hba]
        · exact h₁c.1 b hmem
      have hal : a ∈ (b :: t₂).filter (fun x => key x = key a) := by
        rw [← h (key a)]
        simp [List.filter_cons]
      have hba : key b ≤ key a := by
        rcases List.mem_cons.1 (List.mem_filter.1 hal).1 with hab2 | hmem
        · rw [hab2]
        · exact h₂c.1 a hmem
      have hk : key a = key b := le_antisymm hab hba
      have hhead := h (key a)
      rw [List.filter_cons, List.filter_cons] at hhead
      simp only [eq_self_iff_true, decide_True, if_true, ← hk] at hhead
      have hae : a = b := by
        injection hhead
      have htails : ∀ c : β, t₁.filter (fun x => key x = c) =
          t₂.filter (fun x => key x = c) := by
        intro c
        have hc := h c
        rw [List.filter_cons, List.filter_cons] at hc
        by_cases hac : key a = c
        · rw [if_pos (by simp [hac]), if_pos (by simp [← hk, hac])] at hc
          injection hc
        · rw [if_neg (by simp [hac]), if_neg (by simp [← hk, hac])] at hc
          exact hc
      rw [hae, ih t₂ h₁c.2 h₂c.2 htails]

/-! ### The claims -/

/-- C1: for every finite input and every key function into a linear order,
`quicksort` and `mergesort` each return a permutation of the input whose keys
are non-decreasing. -/
theorem sort_correct (key : α → β) (items : List α) :
    ((quicksort items key).Perm items ∧
      (quicksort items key).Sorted (fun x y : α => key x ≤ key y)) ∧
    ((mergesort items key).Perm items ∧
      (mergesort items key).Sorted (fun x y : α => key x ≤ key y)) :=
  ⟨⟨quicksortRec_perm key items, quicksortRec_sorted key items⟩,
    ⟨mergesortRec_perm key items, mergesortRec_sorted key items⟩⟩

/-- C4: mergesort is stable — because the merge takes the left element on a
tie, the subsequence of items carrying any fixed key value is preserved
verbatim (same items, same relative order) from input to output. -/
theorem mergesort_stable (key : α → β) (items : List α) (c : β) :
    (mergesort items key).filter (fun x => key x = c) =
      items.filter fun x => key x = c :=
  mergesortRec_filter key c items

/-- C5: a top-level `mergesort_with_steps` call produces one snapshot per
merge call, `n - 1` snapshots for `n` items (truncated subtraction), and the
trace is empty when the input has at most one item. -/
theorem mergesort_trace_count (key : α → β) (items : List α) :
    (mergesort_with_steps items key none).2.length = items.length - 1 ∧
    (items.length ≤ 1 → (mergesort_with_steps items key none).2 = []) := by
  have ht := mergesortRec_trace_length key items
  constructor
  · simpa [mergesort_with_steps] using ht
  · intro hle
    have h0 := mergesortRec_of_le key hle
    simp [mergesort_with_steps, h0]

/-- C5 witness: a singleton input yields an empty trace of length `1 - 1`. -/
theorem mergesort_trace_count_witness :
    ([5] : List ℕ).length ≤ 1 ∧
    ((mergesort_with_steps ([5] : List ℕ) (fun n : ℕ => n) none).2.length =
        ([5] : List ℕ).length - 1 ∧
      (mergesort_with_steps ([5] : List ℕ) (fun n : ℕ => n) none).2 = []) :=
  ⟨by decide,
    (mergesort_trace_count (fun n : ℕ => n) [5]).1,
    (mergesort_trace_count (fun n : ℕ => n) [5]).2 (by decide)⟩

/-- C6: a `_quicksort` call on at least two elements contributes exactly two
own snapshots, the partition snapshot `left + middle + right` first and the
combined-result snapshot last, around the snapshots of the recursive calls; a call
on at most one element contributes none, and the empty input yields an empty
trace. -/
theorem quicksort_trace_shape (key : α → β) (arr brr : List α)
    (h2 : 2 ≤ arr.length) (h1 : brr.length ≤ 1) :
    ((quicksortRec key arr).2 =
      keys_snapshot key
          ((arr.filter fun x => key x < midKey key arr (by omega)) ++
            (arr.filter fun x => key x = midKey key arr (by omega)) ++
            (arr.filter fun x => midKey key arr (by omega) < key x)) ::
        ((quicksortRec key (arr.filter fun x => key x < midKey key arr (by omega))).2 ++
          (quicksortRec key (arr.filter fun x => midKey key arr (by omega) < key x)).2 ++
          [keys_snapshot key ((quicksortRec key arr).1)])) ∧
    (quicksortRec key brr).2 = [] ∧
    quicksort_with_steps ([] : List α) key none = ([], []) := by
  have hno : ¬ arr.length ≤ 1 := by omega
  refine ⟨?_, ?_, ?_⟩
  · rw [quicksortRec_eq key hno]
  · rw [quicksortRec_of_le key h1]
  · have h0 : quicksortRec key ([] : List α) = ([], []) :=
      quicksortRec_of_le key (by simp)
    simp [quicksort_with_steps, h0]

/-- C6 witness: on `[3, 1, 2]` (pivot key 1) the trace starts with the
partition snapshot and ends with the sorted snapshot; `[5]` and `[]`
contribute no snapshot. -/
theorem quicksort_trace_shape_witness :
    2 ≤ ([3, 1, 2] : List ℕ).length ∧ ([5] : List ℕ).length ≤ 1 ∧
    (((quicksortRec (fun n : ℕ => n) [3, 1, 2]).2 =
      keys_snapshot (fun n : ℕ => n)
          ((([3, 1, 2] : List ℕ).filter fun x =>
              (fun n : ℕ => n) x < midKey (fun n : ℕ => n) [3, 1, 2] (by decide)) ++
            (([3, 1, 2] : List ℕ).filter fun x =>
              (fun n : ℕ => n) x = midKey (fun n : ℕ => n) [3, 1, 2] (by decide)) ++
            (([3, 1, 2] : List ℕ).filter fun x =>
              midKey (fun n : ℕ => n) [3, 1, 2] (by decide) < (fun n : ℕ => n) x)) ::
        ((quicksortRec (fun n : ℕ => n) (([3, 1, 2] : List ℕ).filter fun x =>
            (fun n : ℕ => n) x < midKey (fun n : ℕ => n) [3, 1, 2] (by decide))).2 ++
          (quicksortRec (fun n : ℕ => n) (([3, 1, 2] : List ℕ).filter fun x =>
            midKey (fun n : ℕ => n) [3, 1, 2] (by decide) < (fun n : ℕ => n) x)).2 ++
          [keys_snapshot (fun n : ℕ => n)
            ((quicksortRec (fun n : ℕ => n) [3, 1, 2]).1)])) ∧
      (quicksortRec (fun n : ℕ => n) ([5] : List ℕ)).2 = [] ∧
      quicksort_with_steps ([] : List ℕ) (fun n : ℕ => n) none = ([], [])) :=
  ⟨by decide, by decide,
    quicksort_trace_shape (fun n : ℕ => n) [3, 1, 2] [5] (by decide) (by decide)⟩

/-- C8: sorting an already-sorted sequence with `mergesort` returns it
unchanged, and `quicksort` is a fixed point on its own output:
re-sorting the output returns the same list. -/
theorem sort_idempotent (key : α → β) (items js : List α)
    (hs : items.Sorted (fun x y : α => key x ≤ key y)) :
    mergesort items key = items ∧
    quicksort (quicksort js key) key = quicksort js key :=
  ⟨sorted_filter_ext key (mergesort items key) items
      (mergesortRec_sorted key items) hs (fun c => mergesortRec_filter key c items),
    sorted_filter_ext key (quicksort (quicksort js key) key) (quicksort js key)
      (quicksortRec_sorted key (quicksort js key)) (quicksortRec_sorted key js)
      (fun c => quicksortRec_filter key c (quicksort js key))⟩

/-- C8 witness: on `[1, 2, 3]` (already sorted) and `[3, 1, 2]`. -/
theorem sort_idempotent_witness :
    ([1, 2, 3] : List ℕ).Sorted
        (fun x y : ℕ => (fun n : ℕ => n) x ≤ (fun n : ℕ => n) y) ∧
    (mergesort ([1, 2, 3] : List ℕ) (fun n : ℕ => n) = [1, 2, 3] ∧
      quicksort (quicksort ([3, 1, 2] : List ℕ) (fun n : ℕ => n)) (fun n : ℕ => n) =
        quicksort ([3, 1, 2] : List ℕ) (fun n : ℕ => n)) :=
  ⟨by decide, sort_idempotent (fun n : ℕ => n) [1, 2, 3] [3, 1, 2] (by decide)⟩

/-- C9: this quicksort is fully stable (the partition filters never separate
equal-key items and preserve input order inside each part), so its output
coincides element for element with the stable mergesort output, for every
input and key. -/
theorem quicksort_eq_mergesort (key : α → β) (items : List α) :
    quicksort items key = mergesort items key :=
  sorted_filter_ext key (quicksort items key) (mergesort items key)
    (quicksortRec_sorted key items) (mergesortRec_sorted key items)
    (fun c => (quicksortRec_filter key c items).trans
      (mergesortRec_filter key c items).symm)

/-- C10: both stepped sorts are deterministic functions of the input and key:
a top-level call with the default `steps=None` starts from a fresh empty trace
equal to exactly the snapshots of this run, a caller-supplied trace is only
appended to, and the snapshots a run appends do not depend on the previously
accumulated trace (so snapshots of one call never leak into another call that
starts with the default argument). -/
theorem sort_trace_deterministic (key : α → β) (items : List α)
    (s s₁ s₂ : List (List β)) :
    (quicksort_with_steps items key none =
        ((quicksortRec key items).1, (quicksortRec key items).2) ∧
      (quicksort_with_steps items key (some s)).2 = s ++ (quicksortRec key items).2 ∧
      ((quicksort_with_steps items key (some s₁)).2).drop s₁.length =
        ((quicksort_with_steps items key (some s₂)).2).drop s₂.length) ∧
    (mergesort_with_steps items key none =
        ((mergesortRec key items).1, (mergesortRec key items).2) ∧
      (mergesort_with_steps items key (some s)).2 = s ++ (mergesortRec key items).2 ∧
      ((mergesort_with_steps items key (some s₁)).2).drop s₁.length =
        ((mergesort_with_steps items key (some s₂)).2).drop s₂.length) := by
  refine ⟨⟨by simp [quicksort_with_steps], by simp [quicksort_with_steps], ?_⟩,
    ⟨by simp [mergesort_with_steps], by simp [mergesort_with_steps], ?_⟩⟩
  · show (s₁ ++ (quicksortRec key items).2).drop s₁.length =
      (s₂ ++ (quicksortRec key items).2).drop s₂.length
    rw [List.drop_left, List.drop_left]
  · show (s₁ ++ (mergesortRec key items).2).drop s₁.length =
      (s₂ ++ (mergesortRec key items).2).drop s₂.length
    rw [List.drop_left, List.drop_left]

end TiendaVirtual
